import Mathlib

/-
Verification of the Calendar Satisfaction Problem (CSP) solver
(`src/date_constraints.py`, `src/csp_solver.py`).

Shallow embedding conventions:
* `datetime` values are modelled by an arbitrary linearly ordered type `α`
  (`Int` in concrete instances): the solver only ever compares dates with
  `==, !=, >, <, >=, <=`, all exact.
* Python `Set[datetime]` domains are modelled as `List α` carrying the
  iteration order (Python set iteration order is unspecified; theorems
  quantify over the lists, hence over all orders).
* `Optional[X]` is `Option X`; the mutable assignment list is
  `List (Option α)`.
* Python exceptions are modelled with `Except`/`Option` only where a claim
  needs them; paths on which the source provably cannot raise are modelled
  by the non-raising value.
* The nondeterministic `arc_set.pop()` of `arc_consistency` (hash-order pop
  from a Python set) and the snapshot iteration order of
  `remove_inconsistent_values` are modelled by a small-step relation
  `ACStep`; a run of `arc_consistency` is a `ReflTransGen` chain ending in
  an empty worklist.
-/

set_option linter.unusedSectionVars false
set_option linter.unusedVariables false

namespace CalendarSat

/-- Embedding of `DateConstraint` (date_constraints.py): `L_VAL` is a meeting index,
`OP` the operator string, `R_VAL` either another meeting index
(`Sum.inl`, binary) or a date literal (`Sum.inr`, unary). -/
structure DateConstraint (α : Type) where
  L_VAL : Nat
  OP : String
  R_VAL : Nat ⊕ α
deriving DecidableEq

/-- Embedding of `DateConstraint._VALID_OPS`. -/
def VALID_OPS : List String := ["==", "!=", ">", "<", ">=", "<="]

variable {α : Type} [LinearOrder α]

/-- Embedding of `DateConstraint.arity`: 1 if `R_VAL` is a datetime, else 2. -/
def DateConstraint.arity (c : DateConstraint α) : Nat :=
  match c.R_VAL with
  | Sum.inl _ => 2
  | Sum.inr _ => 1

/-- Operator dispatch of `DateConstraint._dates_satisfy`: the chain of
`if self.OP == ...` tests, with the final `return False` fallback. -/
def op_eval (op : String) (left_date right_date : α) : Bool :=
  if op = "==" then decide (left_date = right_date)
  else if op = "!=" then ! decide (left_date = right_date)
  else if op = ">" then decide (left_date > right_date)
  else if op = "<" then decide (left_date < right_date)
  else if op = ">=" then decide (left_date ≥ right_date)
  else if op = "<=" then decide (left_date ≤ right_date)
  else false

/-- Embedding of `DateConstraint._dates_satisfy`, which reads only `self.OP`. -/
def dates_satisfy (c : DateConstraint α) (left_date right_date : α) : Bool :=
  op_eval c.OP left_date right_date

/-- Embedding of `DateConstraint.is_satisfied_by_values(left, right)` with the optional
`right_date` argument supplied: it directly evaluates `_dates_satisfy`. -/
def is_satisfied_by_values (c : DateConstraint α) (left_date right_date : α) : Bool :=
  dates_satisfy c left_date right_date

/-- Embedding of `DateConstraint.is_satisfied_by_values(left)` with `right_date` omitted:
for a unary constraint the literal `R_VAL` is used; for a binary constraint
the source raises `ValueError`, modelled as `none`. -/
def is_satisfied_by_values_unary (c : DateConstraint α) (left_date : α) : Option Bool :=
  match c.R_VAL with
  | Sum.inr d => some (dates_satisfy c left_date d)
  | Sum.inl _ => none

/-- Embedding of `DateConstraint.is_satisfied_by_assignment`: looks `L_VAL` (and a binary
`R_VAL`) up in the possibly partial assignment, treating an out-of-range
index as unassigned (`None`), and returns `True` unless both lookups are
assigned, in which case it evaluates `_dates_satisfy`. -/
def is_satisfied_by_assignment (c : DateConstraint α) (assignment : List (Option α)) : Bool :=
  let left_date : Option α :=
    if c.L_VAL < assignment.length then assignment.getD c.L_VAL none else none
  let right_date : Option α :=
    match c.R_VAL with
    | Sum.inr d => some d
    | Sum.inl r => if r < assignment.length then assignment.getD r none else none
  match left_date, right_date with
  | some l, some r => dates_satisfy c l r
  | _, _ => true

/-- Embedding of `DateConstraint._get_symmetrical_op`. -/
def symmetrical_op (op : String) : String :=
  if op = ">" then "<"
  else if op = "<" then ">"
  else if op = ">=" then "<="
  else if op = "<=" then ">="
  else op

/-- Embedding of `DateConstraint.get_reverse`: only defined (`some`) for binary
constraints; the source raises `ValueError` on unary ones (`none`). -/
def get_reverse (c : DateConstraint α) : Option (DateConstraint α) :=
  match c.R_VAL with
  | Sum.inl r => some ⟨r, symmetrical_op c.OP, Sum.inl c.L_VAL⟩
  | Sum.inr _ => none

/-- The two ways `DateConstraint.__init__` can raise: the intended
`ValueError` validations, and the `AttributeError` that the invalid-OP
branch actually raises, because its message evaluates `str(self)` (which
reads `self.L_VAL`) before any attribute has been assigned. -/
inductive PyError where
  | attributeError : PyError
  | valueError : PyError
deriving DecidableEq

/-- Embedding of `DateConstraint.__init__` with `l_val : Int` (the source validates
`l_val ≥ 0`) and `r_val` an `Int` (binary, validated `≥ 0`) or a date
literal (unary).  Checks run in source order. -/
def DateConstraint.init (l_val : Int) (op : String) (r_val : Int ⊕ α) :
    Except PyError (DateConstraint α) :=
  if op ∉ VALID_OPS then
    Except.error PyError.attributeError
  else if l_val < 0 then
    Except.error PyError.valueError
  else
    match r_val with
    | Sum.inl r =>
        if r < 0 then Except.error PyError.valueError
        else Except.ok ⟨l_val.toNat, op, Sum.inl r.toNat⟩
    | Sum.inr d => Except.ok ⟨l_val.toNat, op, Sum.inr d⟩

/-! ## csp_solver.py -/

/-- Embedding of `is_assignment_consistent`: every constraint satisfied by the (possibly
partial) assignment. -/
def is_assignment_consistent (assignment : List (Option α))
    (constraints : List (DateConstraint α)) : Bool :=
  constraints.all (fun c => is_satisfied_by_assignment c assignment)

/-- Embedding of `select_unassigned_variable`: first variable whose slot is `None`.
The source raises `ValueError` when all are assigned; its caller only
invokes it when some slot is unassigned, so the raise is modelled `none`. -/
def select_unassigned_variable (vars : List Nat)
    (assignment : List (Option α)) : Option Nat :=
  (vars.filter (fun v => (assignment.getD v none).isNone)).head?

/-- Embedding of `order_domain_values`, i.e. `list(domain)`; the list already carries the
iteration order. -/
def order_domain_values (domain : List α) : List α :=
  domain

/-- The `for value in order_domain_values(...)` loop body of
`recursive_backtracker`: assign, check consistency, recurse via `bt`
(`recursive_backtracker` at `depth - 1`), and mirror the Python
`if result:` test (true only for a non-`None`, non-empty list). On failure
the source resets `assignment[next_var] = None`, restoring the list it
started the iteration with. -/
def try_values (bt : List (Option α) → Option (List α))
    (constraints : List (DateConstraint α)) (next_var : Nat)
    (assignment : List (Option α)) : List α → Option (List α)
  | [] => none
  | value :: rest =>
      if is_assignment_consistent (assignment.set next_var (some value)) constraints then
        match bt (assignment.set next_var (some value)) with
        | some result =>
            if result.isEmpty then try_values bt constraints next_var assignment rest
            else some result
        | none => try_values bt constraints next_var assignment rest
      else try_values bt constraints next_var assignment rest

/-- Embedding of `recursive_backtracker`.  Here `all(assignment)` is true iff no slot is
`None` (datetimes are always truthy); `cast(List[datetime], assignment)`
is the list of assigned values; `depth <= 0` for the `Nat` depth is
`depth = 0`.  The unreachable `select_unassigned_variable` raise (only
called when some slot is `None`) is modelled by the `none` branch. -/
def recursive_backtracker (vars : List Nat) (domains : List (List α))
    (constraints : List (DateConstraint α)) :
    Nat → List (Option α) → Option (List α)
  | depth, assignment =>
    if assignment.all Option.isSome then some (assignment.filterMap id)
    else
      match depth with
      | 0 => none
      | d + 1 =>
          match select_unassigned_variable vars assignment with
          | some next_var =>
              try_values (fun a => recursive_backtracker vars domains constraints d a)
                constraints next_var assignment
                (order_domain_values (domains.getD next_var []))
          | none => none

/-- Embedding of `node_consistency`: for each unary constraint, keep exactly the domain
values satisfying it (`new_domain` built by membership test). -/
def node_consistency (domains : List (List α))
    (constraints : List (DateConstraint α)) : List (List α) :=
  constraints.foldl
    (fun ds c =>
      if c.arity = 1 then
        ds.set c.L_VAL
          ((ds.getD c.L_VAL []).filter
            (fun v => (is_satisfied_by_values_unary c v).getD false))
      else ds)
    domains

/-- Embedding of `Arc` (csp_solver.py): `TAIL = constraint.L_VAL`,
`HEAD = constraint.R_VAL` if binary else `None`. -/
structure Arc (α : Type) where
  CONSTRAINT : DateConstraint α
  TAIL : Nat
  HEAD : Option Nat
deriving DecidableEq

/-- Embedding of `Arc.__init__` applied to a constraint. -/
def Arc.ofConstraint (c : DateConstraint α) : Arc α :=
  ⟨c, c.L_VAL,
    match c.R_VAL with
    | Sum.inl r => some r
    | Sum.inr _ => none⟩

/-- Set-semantics accumulation: add each element of `new` unless already
present (models inserting into a Python `set`). -/
def add_all (w : List (Arc α)) (new : List (Arc α)) : List (Arc α) :=
  new.foldl (fun acc a => if a ∈ acc then acc else acc ++ [a]) w

/-- Embedding of the arc-set initialisation (renamed for the development): for a binary
constraint add its arc and its `get_reverse()` arc, for a unary one just
its arc; duplicates collapse as in the source's `Set[Arc]`. -/
def init_arcs (constraints : List (DateConstraint α)) : List (Arc α) :=
  add_all []
    (constraints.foldr
      (fun c acc =>
        match get_reverse c with
        | some rc => Arc.ofConstraint c :: Arc.ofConstraint rc :: acc
        | none => Arc.ofConstraint c :: acc)
      [])

/-- Embedding of `get_arcs_related_to_tail`: arcs of the constraints whose `L_VAL`
equals the current arc's `HEAD` (Python `int == Optional[int]` compares
against `None` as false). -/
def get_arcs_related_to_tail (curr_arc : Arc α)
    (constraints : List (DateConstraint α)) : List (Arc α) :=
  (constraints.filter (fun c => decide (some c.L_VAL = curr_arc.HEAD))).map Arc.ofConstraint

/-- Embedding of `exists_satisfying_head_value`: for a binary arc, some head-domain
value satisfies the constraint with `tail_val` on the left; for a headless
(unary) arc, `tail_val` alone must satisfy it (`is_satisfied_by_values`
with one argument; its `ValueError` branch is unreachable for arcs built
from unary constraints and is modelled `false`). -/
def exists_satisfying_head_value (tail_val : α) (curr_arc : Arc α)
    (domains : List (List α)) : Bool :=
  match curr_arc.HEAD with
  | some h =>
      (domains.getD h []).any
        (fun head_val => is_satisfied_by_values curr_arc.CONSTRAINT tail_val head_val)
  | none => (is_satisfied_by_values_unary curr_arc.CONSTRAINT tail_val).getD false

/-- The loop of `remove_inconsistent_values`: `pending` is the snapshot
`set(domains[curr_arc.TAIL])` being iterated (in some order), while the
live tail domain is mutated by `remove`. Returns the `removed` flag and
the updated domains. -/
def riv_loop (curr_arc : Arc α) :
    List α → List (List α) → Bool → Bool × List (List α)
  | [], domains, removed => (removed, domains)
  | tail_val :: rest, domains, removed =>
      if exists_satisfying_head_value tail_val curr_arc domains then
        riv_loop curr_arc rest domains removed
      else
        riv_loop curr_arc rest
          (domains.set curr_arc.TAIL
            ((domains.getD curr_arc.TAIL []).filter (fun w => decide (w ≠ tail_val))))
          true

/-- Embedding of `remove_inconsistent_values` with the snapshot iterated in the order
the tail domain is listed. -/
def remove_inconsistent_values (domains : List (List α)) (curr_arc : Arc α) :
    Bool × List (List α) :=
  riv_loop curr_arc (domains.getD curr_arc.TAIL []) domains false

/-- One iteration of the `while arc_set` loop of `arc_consistency`: pop an
arbitrary member `a` of the worklist, revise it over an arbitrary snapshot
order `pending` of the tail domain, and, if a value was removed, add
`get_arcs_related_to_tail` back into the worklist. -/
inductive ACStep (constraints : List (DateConstraint α)) :
    List (Arc α) × List (List α) → List (Arc α) × List (List α) → Prop where
  | step (w : List (Arc α)) (domains : List (List α)) (a : Arc α) (pending : List α)
      (ha : a ∈ w) (hp : pending.Perm (domains.getD a.TAIL [])) :
      ACStep constraints (w, domains)
        (add_all (w.erase a)
          (if (riv_loop a pending domains false).1 then
            get_arcs_related_to_tail a constraints
          else []),
         (riv_loop a pending domains false).2)

/-- A complete run of `arc_consistency`: from the initial arc set to an
empty worklist. -/
def ACReaches (constraints : List (DateConstraint α))
    (domains domainsF : List (List α)) : Prop :=
  Relation.ReflTransGen (ACStep constraints)
    (init_arcs constraints, domains) ([], domainsF)

/-- The domain initialisation of `solve`:
`[set(date_range) for _ in range(n_meetings)]`, one independent copy of
the candidate set per meeting. -/
def initDomains (n_meetings : Nat) (date_range : List α) : List (List α) :=
  List.replicate n_meetings date_range

/-- Embedding of `solve`: node consistency, then some complete `arc_consistency` run,
then `recursive_backtracker` on `[None] * n`, `list(range(n))`, with
`depth = n`.  `solveR n date_range constraints r` holds iff `r` is a
possible result of `solve`. -/
def solveR (n_meetings : Nat) (date_range : List α)
    (constraints : List (DateConstraint α)) (r : Option (List α)) : Prop :=
  ∃ domainsAC,
    ACReaches constraints (node_consistency (initDomains n_meetings date_range) constraints)
      domainsAC ∧
    r = recursive_backtracker (List.range n_meetings) domainsAC constraints
      n_meetings (List.replicate n_meetings none)

/-! ## Specification-level predicates -/

/-- Predicate: `b` agrees with `a` on every slot that `a` has assigned. -/
def Extends (a b : List (Option α)) : Prop :=
  ∀ (i : Nat) (v : α), a[i]? = some (some v) → b[i]? = some (some v)

/-- Every value newly assigned in `b` (a slot unassigned in `a`) comes from
that variable's domain. -/
def NewFromDomains (domains : List (List α)) (a b : List (Option α)) : Prop :=
  ∀ (i : Nat) (v : α), a[i]? = some none → b[i]? = some (some v) → v ∈ domains.getD i []

/-- Number of unassigned slots. -/
def countNone (a : List (Option α)) : Nat :=
  a.countP (fun x => x.isNone)

/-- Every value of the full assignment `sol` lies in its variable's
domain. -/
def SolIn (sol : List α) (domains : List (List α)) : Prop :=
  ∀ (i : Nat) (v : α), sol[i]? = some v → v ∈ domains.getD i []

/-- All variable indices mentioned by the constraints are `< n`. -/
def WellIndexed (cs : List (DateConstraint α)) (n : Nat) : Prop :=
  ∀ c ∈ cs, c.L_VAL < n ∧ ∀ r, c.R_VAL = Sum.inl r → r < n

/-- The instance has a full assignment drawn from the candidate set that
satisfies every constraint. -/
def Solvable (n : Nat) (date_range : List α) (cs : List (DateConstraint α)) : Prop :=
  ∃ sol : List α, sol.length = n ∧ (∀ v ∈ sol, v ∈ date_range) ∧
    is_assignment_consistent (sol.map some) cs = true

/-- Worklist invariant of `arc_consistency`: every pending arc is the arc
of a constraint of the input set or of the `get_reverse` of one. -/
def GoodArc (cs : List (DateConstraint α)) (a : Arc α) : Prop :=
  (∃ c ∈ cs, a = Arc.ofConstraint c) ∨
  (∃ c ∈ cs, ∃ rc, get_reverse c = some rc ∧ a = Arc.ofConstraint rc)

/-- Pointwise domain inclusion. -/
def DomSub (d e : List (List α)) : Prop :=
  ∀ i, d.getD i [] ⊆ e.getD i []

/-! ## Concrete instances used by witnesses and counterexample runs -/

/-- The instance of the repository's `test_csp_arc_consistency_t4` /
spec scenario, with `d1 = 1`, `d2 = 2`. -/
def t4c1 : DateConstraint Int := ⟨0, "==", Sum.inl 1⟩

/-- Constraint `1 != 2` of the same instance. -/
def t4c2 : DateConstraint Int := ⟨1, "!=", Sum.inl 2⟩

/-- Constraint `2 < 0` of the same instance. -/
def t4c3 : DateConstraint Int := ⟨2, "<", Sum.inl 0⟩

/-- Constraint set `{0 == 1, 1 != 2, 2 < 0}`. -/
def t4cs : List (DateConstraint Int) := [t4c1, t4c2, t4c3]

/-- The single-constraint instance `{0 < 1}` used for the requeue
counterexample. -/
def c4c : DateConstraint Int := ⟨0, "<", Sum.inl 1⟩

/-- Its forward arc. -/
def c4A : Arc Int := Arc.ofConstraint c4c

/-- Its reversed arc `(1 > 0)`, whose tail is the forward arc's head. -/
def c4Ar : Arc Int := Arc.ofConstraint ⟨1, ">", Sum.inl 0⟩

/-- Forward arc of `t4c1`. -/
def t4A1 : Arc Int := Arc.ofConstraint t4c1

/-- Reversed arc of `t4c1`. -/
def t4A1r : Arc Int := Arc.ofConstraint ⟨1, "==", Sum.inl 0⟩

/-- Forward arc of `t4c2`. -/
def t4A2 : Arc Int := Arc.ofConstraint t4c2

/-- Reversed arc of `t4c2`. -/
def t4A2r : Arc Int := Arc.ofConstraint ⟨2, "!=", Sum.inl 1⟩

/-- Forward arc of `t4c3`. -/
def t4A3 : Arc Int := Arc.ofConstraint t4c3

/-- Reversed arc of `t4c3`. -/
def t4A3r : Arc Int := Arc.ofConstraint ⟨0, ">", Sum.inl 2⟩

/-! ## Basic lemmas -/

lemma op_eval_symm (op : String) (a b : α) :
    op_eval (symmetrical_op op) b a = op_eval op a b := by
  by_cases h1 : op = "=="
  · subst h1; show decide (b = a) = decide (a = b); simp [eq_comm]
  · by_cases h2 : op = "!="
    · subst h2; show (! decide (b = a)) = ! decide (a = b); simp [eq_comm]
    · by_cases h3 : op = ">"
      · subst h3; show decide (b < a) = decide (a > b); simp [gt_iff_lt]
      · by_cases h4 : op = "<"
        · subst h4; show decide (b > a) = decide (a < b); simp [gt_iff_lt]
        · by_cases h5 : op = ">="
          · subst h5; show decide (b ≤ a) = decide (a ≥ b); simp [ge_iff_le]
          · by_cases h6 : op = "<="
            · subst h6; show decide (b ≥ a) = decide (a ≤ b); simp [ge_iff_le]
            · simp [op_eval, symmetrical_op, h1, h2, h3, h4, h5, h6]

lemma getD_getElem? (l : List (List α)) (i : Nat) :
    l.getD i [] = (l[i]?).getD [] :=
  List.getD_eq_getElem?_getD l i []

lemma getD_set_ne (l : List (List α)) (i j : Nat) (x : List α) (h : j ≠ i) :
    (l.set i x).getD j [] = l.getD j [] := by
  rw [getD_getElem?, getD_getElem?, List.getElem?_set_ne (fun hh => h hh.symm)]

lemma getD_set_lt (l : List (List α)) (i : Nat) (x : List α) (h : i < l.length) :
    (l.set i x).getD i [] = x := by
  rw [getD_getElem?, List.getElem?_set_self]
  · rfl
  · exact h

lemma mem_add_all (w new : List (Arc α)) (x : Arc α) :
    x ∈ add_all w new ↔ x ∈ w ∨ x ∈ new := by
  induction new generalizing w with
  | nil => simp [add_all]
  | cons a rest ih =>
      show x ∈ add_all (if a ∈ w then w else w ++ [a]) rest ↔ _
      rw [ih]
      by_cases hm : a ∈ w
      · simp only [if_pos hm, List.mem_cons]
        constructor
        · rintro (h | h)
          · exact Or.inl h
          · exact Or.inr (Or.inr h)
        · rintro (h | h | h)
          · exact Or.inl h
          · exact Or.inl (h ▸ hm)
          · exact Or.inr h
      · simp only [if_neg hm, List.mem_append, List.mem_singleton, List.mem_cons]
        tauto

lemma mem_get_arcs (curr : Arc α) (cs : List (DateConstraint α)) (x : Arc α) :
    x ∈ get_arcs_related_to_tail curr cs ↔
      ∃ c ∈ cs, some c.L_VAL = curr.HEAD ∧ x = Arc.ofConstraint c := by
  simp only [get_arcs_related_to_tail, List.mem_map, List.mem_filter, decide_eq_true_eq]
  constructor
  · rintro ⟨c, ⟨hc, hh⟩, rfl⟩; exact ⟨c, hc, hh, rfl⟩
  · rintro ⟨c, hc, hh, rfl⟩; exact ⟨c, ⟨hc, hh⟩, rfl⟩


lemma lookup_eq (a : List (Option α)) (i : Nat) :
    (if i < a.length then a.getD i none else none) = (a[i]?).getD none := by
  by_cases h : i < a.length
  · rw [if_pos h, List.getD_eq_getElem?_getD]
  · rw [if_neg h, List.getElem?_eq_none (le_of_not_lt h)]; rfl

lemma optGetD_some {o : Option (Option α)} {v : α} :
    o.getD none = some v ↔ o = some (some v) := by
  cases o <;> simp

lemma isba_of_left_none (c : DateConstraint α) (a : List (Option α))
    (h : (a[c.L_VAL]?).getD none = none) :
    is_satisfied_by_assignment c a = true := by
  unfold is_satisfied_by_assignment
  rw [lookup_eq, h]

lemma isba_of_right_none (c : DateConstraint α) (a : List (Option α)) (r : Nat)
    (hR : c.R_VAL = Sum.inl r) (h : (a[r]?).getD none = none) :
    is_satisfied_by_assignment c a = true := by
  unfold is_satisfied_by_assignment
  rw [hR]
  simp only [lookup_eq]
  rw [h]
  rcases (a[c.L_VAL]?).getD none with _ | lv <;> rfl

lemma isba_binary (c : DateConstraint α) (a : List (Option α)) (r : Nat) (lv rv : α)
    (hR : c.R_VAL = Sum.inl r) (hl : (a[c.L_VAL]?).getD none = some lv)
    (hr : (a[r]?).getD none = some rv) :
    is_satisfied_by_assignment c a = dates_satisfy c lv rv := by
  unfold is_satisfied_by_assignment
  rw [hR]
  simp only [lookup_eq]
  rw [hl, hr]

lemma isba_unary (c : DateConstraint α) (a : List (Option α)) (d : α) (lv : α)
    (hR : c.R_VAL = Sum.inr d) (hl : (a[c.L_VAL]?).getD none = some lv) :
    is_satisfied_by_assignment c a = dates_satisfy c lv d := by
  unfold is_satisfied_by_assignment
  rw [hR]
  simp only [lookup_eq]
  rw [hl]

lemma is_satisfied_mono (c : DateConstraint α) (a b : List (Option α))
    (hext : Extends a b)
    (hb : is_satisfied_by_assignment c b = true) :
    is_satisfied_by_assignment c a = true := by
  rcases hL : (a[c.L_VAL]?).getD none with _ | lv
  · exact isba_of_left_none c a hL
  · rcases hR : c.R_VAL with r | d
    · rcases hr : (a[r]?).getD none with _ | rv
      · exact isba_of_right_none c a r hR hr
      · rw [isba_binary c a r lv rv hR hL hr]
        have hbl : (b[c.L_VAL]?).getD none = some lv :=
          optGetD_some.mpr (hext _ _ (optGetD_some.mp hL))
        have hbr : (b[r]?).getD none = some rv :=
          optGetD_some.mpr (hext _ _ (optGetD_some.mp hr))
        rw [isba_binary c b r lv rv hR hbl hbr] at hb
        exact hb
    · rw [isba_unary c a d lv hR hL]
      have hbl : (b[c.L_VAL]?).getD none = some lv :=
        optGetD_some.mpr (hext _ _ (optGetD_some.mp hL))
      rw [isba_unary c b d lv hR hbl] at hb
      exact hb

lemma consistent_mono (cs : List (DateConstraint α)) (a b : List (Option α))
    (hext : Extends a b)
    (hb : is_assignment_consistent b cs = true) :
    is_assignment_consistent a cs = true := by
  rw [is_assignment_consistent, List.all_eq_true] at *
  exact fun c hc => is_satisfied_mono c a b hext (hb c hc)

lemma filterMap_id_length (b : List (Option α)) (h : b.all Option.isSome = true) :
    (b.filterMap id).length = b.length := by
  induction b with
  | nil => rfl
  | cons x t ih =>
      cases x with
      | none => simp at h
      | some v =>
          simp only [List.all_cons, Bool.and_eq_true] at h
          simp [List.filterMap_cons, ih h.2]

lemma filterMap_id_map_some (b : List (Option α)) (h : b.all Option.isSome = true) :
    ((b.filterMap id).map some) = b := by
  induction b with
  | nil => rfl
  | cons x t ih =>
      cases x with
      | none => simp at h
      | some v =>
          simp only [List.all_cons, Bool.and_eq_true] at h
          simp [List.filterMap_cons, ih h.2]

lemma all_isSome_iff_countNone (a : List (Option α)) :
    a.all Option.isSome = true ↔ countNone a = 0 := by
  rw [countNone, List.countP_eq_zero, List.all_eq_true]
  constructor
  · intro h x hx
    have := h x hx
    cases x with
    | none => simp at this
    | some v => simp
  · intro h x hx
    have := h x hx
    cases x with
    | none => simp at this
    | some v => simp

lemma countNone_pos (a : List (Option α)) (i : Nat) (h : a[i]? = some none) :
    0 < countNone a := by
  obtain ⟨hlt, he⟩ := List.getElem?_eq_some_iff.mp h
  exact List.countP_pos_iff.mpr ⟨none, he ▸ List.getElem_mem hlt, rfl⟩

lemma countNone_set_some (a : List (Option α)) (i : Nat) (v : α)
    (h : a[i]? = some none) :
    countNone (a.set i (some v)) + 1 = countNone a := by
  induction a generalizing i with
  | nil => simp at h
  | cons x t ih =>
      cases i with
      | zero =>
          simp only [List.getElem?_cons_zero, Option.some_inj] at h
          subst h
          simp [countNone, List.countP_cons]
      | succ j =>
          simp only [List.getElem?_cons_succ] at h
          have := ih j h
          simp only [List.set_cons_succ, countNone, List.countP_cons] at *
          omega

lemma select_spec (n : Nat) (a : List (Option α)) (hlen : a.length = n)
    (hns : ¬ a.all Option.isSome = true) :
    ∃ nv, select_unassigned_variable (List.range n) a = some nv ∧ nv < n ∧
      a[nv]? = some none := by
  have hex : ∃ i, i < n ∧ a[i]? = some none := by
    rw [List.all_eq_true] at hns
    push_neg at hns
    obtain ⟨x, hx, hxs⟩ := hns
    obtain ⟨i, hi, he⟩ := List.mem_iff_getElem.mp hx
    refine ⟨i, hlen ▸ hi, ?_⟩
    rw [List.getElem?_eq_some_iff]
    cases x with
    | none => exact ⟨hi, he⟩
    | some v => simp at hxs
  obtain ⟨i, hi, he⟩ := hex
  have hmemf : i ∈ (List.range n).filter (fun v => (a.getD v none).isNone) := by
    rw [List.mem_filter, List.mem_range]
    refine ⟨hi, ?_⟩
    rw [List.getD_eq_getElem?_getD, he]
    rfl
  rcases hf : (List.range n).filter (fun v => (a.getD v none).isNone) with _ | ⟨hd, tl⟩
  · rw [hf] at hmemf; simp at hmemf
  · refine ⟨hd, ?_, ?_, ?_⟩
    · rw [select_unassigned_variable, hf]; rfl
    · have : hd ∈ (List.range n).filter (fun v => (a.getD v none).isNone) := by
        rw [hf]; exact List.mem_cons_self hd tl
      rw [List.mem_filter, List.mem_range] at this
      exact this.1
    · have hhd : hd ∈ (List.range n).filter (fun v => (a.getD v none).isNone) := by
        rw [hf]; exact List.mem_cons_self hd tl
      rw [List.mem_filter, List.mem_range] at hhd
      obtain ⟨hlt, hpred⟩ := hhd
      rw [List.getD_eq_getElem?_getD] at hpred
      rcases hq : a[hd]? with _ | x
      · rw [List.getElem?_eq_none_iff] at hq; omega
      · rw [hq] at hpred
        cases x with
        | none => rfl
        | some v => simp at hpred

lemma recursive_backtracker_eq (v : List Nat) (dm : List (List α))
    (cs : List (DateConstraint α)) (d : Nat) (a : List (Option α)) :
    recursive_backtracker v dm cs d a =
      if a.all Option.isSome then some (a.filterMap id)
      else
        match d with
        | 0 => none
        | d' + 1 =>
            match select_unassigned_variable v a with
            | some nv =>
                try_values (fun x => recursive_backtracker v dm cs d' x) cs nv a
                  (order_domain_values (dm.getD nv []))
            | none => none := by
  rw [recursive_backtracker.eq_def]

lemma extends_refl (a : List (Option α)) : Extends a a := fun _ _ h => h

lemma extends_trans {a b c : List (Option α)} (h1 : Extends a b) (h2 : Extends b c) :
    Extends a c := fun i v h => h2 i v (h1 i v h)

lemma set_getElem?_self (l : List (Option α)) (i : Nat) (x : Option α)
    (h : i < l.length) : (l.set i x)[i]? = some x := by
  rw [List.getElem?_set_self]
  exact h

lemma extends_set (a : List (Option α)) (nv : Nat) (v : α) (ha : a[nv]? = some none) :
    Extends a (a.set nv (some v)) := by
  intro i w h
  by_cases hi : i = nv
  · subst hi; rw [h] at ha; simp at ha
  · rw [List.getElem?_set_ne (fun hh => hi hh.symm)]
    exact h

lemma select_range_inv (n : Nat) (a : List (Option α)) (nv : Nat)
    (hlen : a.length = n)
    (h : select_unassigned_variable (List.range n) a = some nv) :
    nv < n ∧ a[nv]? = some none := by
  rw [select_unassigned_variable] at h
  have hmem : nv ∈ (List.range n).filter (fun v => (a.getD v none).isNone) :=
    List.mem_of_mem_head? (Option.mem_def.mpr h)
  rw [List.mem_filter, List.mem_range] at hmem
  obtain ⟨hlt, hpred⟩ := hmem
  refine ⟨hlt, ?_⟩
  rw [List.getD_eq_getElem?_getD] at hpred
  rcases hq : a[nv]? with _ | x
  · rw [List.getElem?_eq_none_iff] at hq; omega
  · rw [hq] at hpred
    cases x with
    | none => rfl
    | some w => simp at hpred

lemma try_values_sound (n : Nat) (dm : List (List α)) (cs : List (DateConstraint α))
    (bt : List (Option α) → Option (List α))
    (btS : ∀ x l, x.length = n → bt x = some l →
      ∃ b, b.length = x.length ∧ b.all Option.isSome = true ∧ l = b.filterMap id ∧
        Extends x b ∧ NewFromDomains dm x b ∧
        (is_assignment_consistent b cs = true ∨ b = x))
    (nv : Nat) (a : List (Option α)) (hlen : a.length = n) (ha : a[nv]? = some none) :
    ∀ values : List α, (∀ v ∈ values, v ∈ dm.getD nv []) →
      ∀ l, try_values bt cs nv a values = some l →
      ∃ b, b.length = a.length ∧ b.all Option.isSome = true ∧ l = b.filterMap id ∧
        Extends a b ∧ NewFromDomains dm a b ∧ is_assignment_consistent b cs = true := by
  intro values
  induction values with
  | nil => intro _ l h; rw [try_values] at h; cases h
  | cons v rest ih =>
      intro hvals l h
      rw [try_values] at h
      have hnvlt : nv < a.length := (List.getElem?_eq_some_iff.mp ha).1
      have hattlen : (a.set nv (some v)).length = n := by
        rw [List.length_set]; exact hlen
      by_cases hc : is_assignment_consistent (a.set nv (some v)) cs = true
      · rw [if_pos hc] at h
        rcases hbt : bt (a.set nv (some v)) with _ | res
        · rw [hbt] at h
          dsimp only at h
          exact ih (fun w hw => hvals w (List.mem_cons_of_mem v hw)) l h
        · rw [hbt] at h
          dsimp only at h
          by_cases he : res.isEmpty
          · rw [if_pos he] at h
            exact ih (fun w hw => hvals w (List.mem_cons_of_mem v hw)) l h
          · rw [if_neg he] at h
            injection h with h
            subst h
            obtain ⟨b, hblen, hbsome, hbeq, hbext, hbnew, hbcons⟩ :=
              btS (a.set nv (some v)) res hattlen hbt
            have hxat : Extends a (a.set nv (some v)) := extends_set a nv v ha
            refine ⟨b, by rw [hblen, List.length_set], hbsome, hbeq,
              extends_trans hxat hbext, ?_, ?_⟩
            · intro i w hi hbw
              by_cases hinv : i = nv
              · subst hinv
                have hset : (a.set i (some v))[i]? = some (some v) :=
                  set_getElem?_self a i (some v) hnvlt
                have := hbext i v hset
                rw [this] at hbw
                injection hbw with hbw
                injection hbw with hbw
                subst hbw
                exact hvals v (List.mem_cons_self v rest)
              · have hset : (a.set nv (some v))[i]? = a[i]? :=
                  List.getElem?_set_ne (fun hh => hinv hh.symm)
                exact hbnew i w (by rw [hset]; exact hi) hbw
            · rcases hbcons with hok | hba
              · exact hok
              · rw [hba]; exact hc
      · rw [if_neg hc] at h
        exact ih (fun w hw => hvals w (List.mem_cons_of_mem v hw)) l h

lemma backtracker_sound (n : Nat) (dm : List (List α)) (cs : List (DateConstraint α)) :
    ∀ (d : Nat) (a : List (Option α)) (l : List α), a.length = n →
      recursive_backtracker (List.range n) dm cs d a = some l →
      ∃ b, b.length = a.length ∧ b.all Option.isSome = true ∧ l = b.filterMap id ∧
        Extends a b ∧ NewFromDomains dm a b ∧
        (is_assignment_consistent b cs = true ∨ b = a) := by
  intro d
  induction d with
  | zero =>
      intro a l hlen h
      rw [recursive_backtracker_eq] at h
      by_cases hall : a.all Option.isSome = true
      · rw [if_pos hall] at h
        injection h with h
        subst h
        refine ⟨a, rfl, hall, rfl, extends_refl a, ?_, Or.inr rfl⟩
        intro i w hi hw
        rw [hi] at hw
        simp at hw
      · rw [if_neg hall] at h
        cases h
  | succ d' ih =>
      intro a l hlen h
      rw [recursive_backtracker_eq] at h
      by_cases hall : a.all Option.isSome = true
      · rw [if_pos hall] at h
        injection h with h
        subst h
        refine ⟨a, rfl, hall, rfl, extends_refl a, ?_, Or.inr rfl⟩
        intro i w hi hw
        rw [hi] at hw
        simp at hw
      · rw [if_neg hall] at h
        dsimp only at h
        rcases hsel : select_unassigned_variable (List.range n) a with _ | nv
        · rw [hsel] at h; cases h
        · rw [hsel] at h
          dsimp only at h
          obtain ⟨hnv, hanv⟩ := select_range_inv n a nv hlen hsel
          obtain ⟨b, h1, h2, h3, h4, h5, h6⟩ := try_values_sound n dm cs _
            (fun x l2 hx hbt => ih x l2 hx hbt) nv a hlen hanv _
            (fun v hv => hv) l h
          exact ⟨b, h1, h2, h3, h4, h5, Or.inl h6⟩

lemma extends_set_sol (a : List (Option α)) (sol : List α) (nv : Nat) (sv : α)
    (hext : Extends a (sol.map some)) (hsv : sol[nv]? = some sv) :
    Extends (a.set nv (some sv)) (sol.map some) := by
  intro i w h
  by_cases hi : i = nv
  · subst hi
    rcases Nat.lt_or_ge i a.length with hlt | hge
    · rw [set_getElem?_self a i (some sv) hlt] at h
      injection h with h
      injection h with h
      subst h
      rw [List.getElem?_map, hsv]
      rfl
    · rw [List.set_eq_of_length_le hge] at h
      exact hext i w h
  · rw [List.getElem?_set_ne (fun hh => hi hh.symm)] at h
    exact hext i w h

lemma try_values_complete (n : Nat) (dm : List (List α)) (cs : List (DateConstraint α))
    (sol : List α) (hsollen : sol.length = n)
    (hcons : is_assignment_consistent (sol.map some) cs = true)
    (d' : Nat)
    (IH : ∀ x : List (Option α), x.length = n → Extends x (sol.map some) →
      countNone x ≤ d' → ∃ l, recursive_backtracker (List.range n) dm cs d' x = some l)
    (nv : Nat) (a : List (Option α)) (hlen : a.length = n) (ha : a[nv]? = some none)
    (hext : Extends a (sol.map some)) (hcount : countNone a ≤ d' + 1)
    (sv : α) (hsv : sol[nv]? = some sv) :
    ∀ values : List α, sv ∈ values →
      ∃ l, try_values (fun x => recursive_backtracker (List.range n) dm cs d' x)
        cs nv a values = some l := by
  intro values
  induction values with
  | nil => intro h; simp at h
  | cons v rest ih =>
      intro hmem
      rw [try_values]
      have hnvlt : nv < a.length := (List.getElem?_eq_some_iff.mp ha).1
      by_cases hv : v = sv
      · subst hv
        have hatt_ext : Extends (a.set nv (some v)) (sol.map some) :=
          extends_set_sol a sol nv v hext hsv
        have hattcons : is_assignment_consistent (a.set nv (some v)) cs = true :=
          consistent_mono cs _ _ hatt_ext hcons
        rw [if_pos hattcons]
        have hattlen : (a.set nv (some v)).length = n := by
          rw [List.length_set]; exact hlen
        have hattcount : countNone (a.set nv (some v)) ≤ d' := by
          have := countNone_set_some a nv v ha
          omega
        obtain ⟨l, hl⟩ := IH _ hattlen hatt_ext hattcount
        rw [hl]
        dsimp only
        obtain ⟨b, hblen, hbsome, hbeq, _⟩ :=
          backtracker_sound n dm cs d' _ l hattlen hl
        have hllen : l.length = n := by
          rw [hbeq, filterMap_id_length b hbsome, hblen, hattlen]
        have hne : ¬ l.isEmpty = true := by
          rw [List.isEmpty_iff]
          intro hnil
          rw [hnil] at hllen
          simp at hllen
          omega
        rw [if_neg hne]
        exact ⟨l, rfl⟩
      · have hmem' : sv ∈ rest := by
          rcases List.mem_cons.mp hmem with h | h
          · exact absurd h.symm hv
          · exact h
        by_cases hc : is_assignment_consistent (a.set nv (some v)) cs = true
        · rw [if_pos hc]
          rcases hbt : recursive_backtracker (List.range n) dm cs d' (a.set nv (some v))
            with _ | res
          · dsimp only
            exact ih hmem'
          · dsimp only
            by_cases he : res.isEmpty = true
            · rw [if_pos he]
              exact ih hmem'
            · rw [if_neg he]
              exact ⟨res, rfl⟩
        · rw [if_neg hc]
          exact ih hmem'

lemma backtracker_complete (n : Nat) (dm : List (List α)) (cs : List (DateConstraint α))
    (sol : List α) (hsollen : sol.length = n)
    (hcons : is_assignment_consistent (sol.map some) cs = true)
    (hdom : SolIn sol dm) :
    ∀ (d : Nat) (a : List (Option α)), a.length = n → Extends a (sol.map some) →
      countNone a ≤ d → ∃ l, recursive_backtracker (List.range n) dm cs d a = some l := by
  intro d
  induction d with
  | zero =>
      intro a hlen hext hcount
      have hall : a.all Option.isSome = true :=
        (all_isSome_iff_countNone a).mpr (Nat.le_zero.mp hcount)
      exact ⟨a.filterMap id, by rw [recursive_backtracker_eq, if_pos hall]⟩
  | succ d' ih =>
      intro a hlen hext hcount
      by_cases hall : a.all Option.isSome = true
      · exact ⟨a.filterMap id, by rw [recursive_backtracker_eq, if_pos hall]⟩
      · obtain ⟨nv, hsel, hnv, hanv⟩ := select_spec n a hlen hall
        have hsv : ∃ sv, sol[nv]? = some sv := by
          refine ⟨sol.get ⟨nv, by omega⟩, List.getElem?_eq_some_iff.mpr ⟨by omega, rfl⟩⟩
        obtain ⟨sv, hsv⟩ := hsv
        have hsvdom : sv ∈ dm.getD nv [] := hdom nv sv hsv
        obtain ⟨l, hl⟩ := try_values_complete n dm cs sol hsollen hcons d'
          (fun x hx he hc => ih x hx he hc) nv a hlen hanv hext hcount sv hsv
          (order_domain_values (dm.getD nv [])) hsvdom
        refine ⟨l, ?_⟩
        rw [recursive_backtracker_eq, if_neg hall]
        dsimp only
        rw [hsel]
        dsimp only
        exact hl

lemma consistent_elem {cs : List (DateConstraint α)} {b : List (Option α)}
    (h : is_assignment_consistent b cs = true) {c : DateConstraint α} (hc : c ∈ cs) :
    is_satisfied_by_assignment c b = true :=
  List.all_eq_true.mp h c hc

lemma sol_lookup (sol : List α) (i : Nat) (v : α) (h : sol[i]? = some v) :
    ((sol.map some)[i]?).getD none = some v := by
  rw [List.getElem?_map, h]
  rfl

lemma getD_nil_of_ge (d : List (List α)) (i : Nat) (h : d.length ≤ i) :
    d.getD i [] = [] := by
  rw [getD_getElem?, List.getElem?_eq_none h]
  rfl

lemma nc_one_preserves_solin (c : DateConstraint α) (sol : List α)
    (hc : is_satisfied_by_assignment c (sol.map some) = true)
    (d : List (List α)) (hin : SolIn sol d) :
    SolIn sol
      (if c.arity = 1 then
        d.set c.L_VAL
          ((d.getD c.L_VAL []).filter
            (fun v => (is_satisfied_by_values_unary c v).getD false))
      else d) := by
  by_cases har : c.arity = 1
  · rw [if_pos har]
    rcases hR : c.R_VAL with r | dt
    · rw [DateConstraint.arity, hR] at har; cases har
    · intro i v hv
      by_cases hi : i = c.L_VAL
      · subst hi
        rcases Nat.lt_or_ge c.L_VAL d.length with hlt | hge
        · rw [getD_set_lt d _ _ hlt, List.mem_filter]
          refine ⟨hin _ _ hv, ?_⟩
          have hsat : dates_satisfy c v dt = true := by
            rw [isba_unary c (sol.map some) dt v hR (sol_lookup sol c.L_VAL v hv)] at hc
            exact hc
          rw [is_satisfied_by_values_unary, hR]
          dsimp only
          rw [hsat]
          rfl
        · exfalso
          have := hin _ _ hv
          rw [getD_nil_of_ge d c.L_VAL hge] at this
          simp at this
      · rw [getD_set_ne d _ _ _ hi]
        exact hin _ _ hv
  · rw [if_neg har]
    exact hin

lemma node_consistency_preserves_solin (cs : List (DateConstraint α)) (sol : List α)
    (hcons : is_assignment_consistent (sol.map some) cs = true) :
    ∀ d, SolIn sol d → SolIn sol (node_consistency d cs) := by
  induction cs with
  | nil => intro d h; exact h
  | cons c cs' ih =>
      intro d h
      have hcs' : is_assignment_consistent (sol.map some) cs' = true := by
        rw [is_assignment_consistent, List.all_eq_true] at hcons ⊢
        exact fun x hx => hcons x (List.mem_cons_of_mem c hx)
      have hcsat : is_satisfied_by_assignment c (sol.map some) = true :=
        consistent_elem hcons (List.mem_cons_self c cs')
      show SolIn sol (node_consistency _ cs')
      exact ih hcs' _ (nc_one_preserves_solin c sol hcsat d h)

lemma domSub_refl (d : List (List α)) : DomSub d d := fun _ _ hx => hx

lemma domSub_trans {d e f : List (List α)} (h1 : DomSub d e) (h2 : DomSub e f) :
    DomSub d f := fun i => (h1 i).trans (h2 i)

lemma set_filter_domsub (d : List (List α)) (i : Nat) (p : α → Bool) :
    DomSub (d.set i ((d.getD i []).filter p)) d := by
  intro j
  by_cases hj : j = i
  · subst hj
    rcases Nat.lt_or_ge j d.length with hlt | hge
    · rw [getD_set_lt d _ _ hlt]
      exact fun x hx => (List.mem_filter.mp hx).1
    · rw [List.set_eq_of_length_le hge]
      exact fun x hx => hx
  · rw [getD_set_ne d _ _ _ hj]
    exact fun x hx => hx

lemma node_consistency_domsub (cs : List (DateConstraint α)) :
    ∀ d, DomSub (node_consistency d cs) d := by
  induction cs with
  | nil => intro d; exact domSub_refl d
  | cons c cs' ih =>
      intro d
      show DomSub (node_consistency _ cs') d
      refine domSub_trans (ih _) ?_
      show DomSub
        (if c.arity = 1 then
          d.set c.L_VAL
            ((d.getD c.L_VAL []).filter
              (fun v => (is_satisfied_by_values_unary c v).getD false))
        else d) d
      by_cases har : c.arity = 1
      · rw [if_pos har]
        exact set_filter_domsub d c.L_VAL _
      · rw [if_neg har]
        exact domSub_refl d

lemma riv_domsub (arc : Arc α) :
    ∀ (pending : List α) (d : List (List α)) (b : Bool),
      DomSub (riv_loop arc pending d b).2 d := by
  intro pending
  induction pending with
  | nil => intro d b; exact domSub_refl d
  | cons tv rest ih =>
      intro d b
      rw [riv_loop]
      by_cases hs : exists_satisfying_head_value tv arc d = true
      · rw [if_pos hs]; exact ih d b
      · rw [if_neg hs]
        exact domSub_trans (ih _ true) (set_filter_domsub d arc.TAIL _)

lemma riv_preserves_solin (arc : Arc α) (sol : List α)
    (hsupport : ∀ (d : List (List α)) (tv : α), SolIn sol d →
      sol[arc.TAIL]? = some tv → exists_satisfying_head_value tv arc d = true) :
    ∀ (pending : List α) (d : List (List α)) (b : Bool), SolIn sol d →
      SolIn sol (riv_loop arc pending d b).2 := by
  intro pending
  induction pending with
  | nil => intro d b h; exact h
  | cons tv rest ih =>
      intro d b h
      rw [riv_loop]
      by_cases hs : exists_satisfying_head_value tv arc d = true
      · rw [if_pos hs]; exact ih d b h
      · rw [if_neg hs]
        apply ih
        intro i v hv
        by_cases hi : i = arc.TAIL
        · subst hi
          rcases Nat.lt_or_ge arc.TAIL d.length with hlt | hge
          · rw [getD_set_lt d _ _ hlt, List.mem_filter]
            refine ⟨h _ _ hv, ?_⟩
            have hvtv : v ≠ tv := by
              intro he
              subst he
              exact hs (hsupport d v h hv)
            simp [hvtv]
          · exfalso
            have := h _ _ hv
            rw [getD_nil_of_ge d arc.TAIL hge] at this
            simp at this
        · rw [getD_set_ne d _ _ _ hi]
          exact h _ _ hv

lemma arc_head_binary (c : DateConstraint α) (r : Nat) (hR : c.R_VAL = Sum.inl r) :
    (Arc.ofConstraint c).HEAD = some r := by
  rw [Arc.ofConstraint, hR]

lemma arc_head_unary (c : DateConstraint α) (dt : α) (hR : c.R_VAL = Sum.inr dt) :
    (Arc.ofConstraint c).HEAD = none := by
  rw [Arc.ofConstraint, hR]

lemma sol_get_exists (sol : List α) (i : Nat) (h : i < sol.length) :
    ∃ v, sol[i]? = some v :=
  ⟨sol[i], List.getElem?_eq_some_iff.mpr ⟨h, rfl⟩⟩

lemma good_arc_support (cs : List (DateConstraint α)) (n : Nat) (sol : List α)
    (hlen : sol.length = n) (hW : WellIndexed cs n)
    (hcons : is_assignment_consistent (sol.map some) cs = true)
    (arc : Arc α) (hgood : GoodArc cs arc)
    (d : List (List α)) (hin : SolIn sol d)
    (tv : α) (htv : sol[arc.TAIL]? = some tv) :
    exists_satisfying_head_value tv arc d = true := by
  rcases hgood with ⟨c, hc, rfl⟩ | ⟨c, hc, rc, hrc, rfl⟩
  · have hcsat : is_satisfied_by_assignment c (sol.map some) = true :=
      consistent_elem hcons hc
    rcases hR : c.R_VAL with r | dt
    · -- binary forward arc: TAIL = L_VAL, HEAD = some r
      have hr_lt : r < n := (hW c hc).2 r hR
      obtain ⟨hv, hhv⟩ := sol_get_exists sol r (by omega)
      have hmem : hv ∈ d.getD r [] := hin r hv hhv
      have hsat : dates_satisfy c tv hv = true := by
        rw [isba_binary c (sol.map some) r tv hv hR
          (sol_lookup sol c.L_VAL tv htv) (sol_lookup sol r hv hhv)] at hcsat
        exact hcsat
      rw [exists_satisfying_head_value, arc_head_binary c r hR]
      dsimp only
      exact List.any_eq_true.mpr ⟨hv, hmem, hsat⟩
    · -- unary arc: headless
      have hsat : dates_satisfy c tv dt = true := by
        rw [isba_unary c (sol.map some) dt tv hR
          (sol_lookup sol c.L_VAL tv htv)] at hcsat
        exact hcsat
      rw [exists_satisfying_head_value, arc_head_unary c dt hR]
      dsimp only [Arc.ofConstraint]
      rw [is_satisfied_by_values_unary, hR]
      dsimp only
      rw [hsat]
      rfl
  · -- reversed arc of a binary constraint
    have hcsat : is_satisfied_by_assignment c (sol.map some) = true :=
      consistent_elem hcons hc
    rw [get_reverse] at hrc
    rcases hR : c.R_VAL with r | dt
    · rw [hR] at hrc
      dsimp only at hrc
      injection hrc with hrc
      subst hrc
      -- rc = ⟨r, symmetrical_op c.OP, Sum.inl c.L_VAL⟩; TAIL = r, HEAD = some c.L_VAL
      have hl_lt : c.L_VAL < n := (hW c hc).1
      obtain ⟨hv, hhv⟩ := sol_get_exists sol c.L_VAL (by omega)
      have hmem : hv ∈ d.getD c.L_VAL [] := hin c.L_VAL hv hhv
      have hsat : dates_satisfy c hv tv = true := by
        rw [isba_binary c (sol.map some) r hv tv hR
          (sol_lookup sol c.L_VAL hv hhv) (sol_lookup sol r tv htv)] at hcsat
        exact hcsat
      rw [exists_satisfying_head_value]
      dsimp only [Arc.ofConstraint]
      exact List.any_eq_true.mpr ⟨hv, hmem, by
        show is_satisfied_by_values _ tv hv = true
        show op_eval (symmetrical_op c.OP) tv hv = true
        rw [op_eval_symm c.OP hv tv]
        exact hsat⟩
    · rw [hR] at hrc
      cases hrc

lemma goodArc_weaken (c : DateConstraint α) (cs : List (DateConstraint α)) (a : Arc α)
    (h : GoodArc cs a) : GoodArc (c :: cs) a := by
  rcases h with ⟨x, hx, hh⟩ | ⟨x, hx, rc, hrc, hh⟩
  · exact Or.inl ⟨x, List.mem_cons_of_mem c hx, hh⟩
  · exact Or.inr ⟨x, List.mem_cons_of_mem c hx, rc, hrc, hh⟩

lemma init_arcs_good (cs : List (DateConstraint α)) :
    ∀ a ∈ init_arcs cs, GoodArc cs a := by
  intro a ha
  rw [init_arcs, mem_add_all] at ha
  rcases ha with ha | ha
  · simp at ha
  · induction cs with
    | nil => simp at ha
    | cons c cs' ih =>
        rw [List.foldr_cons] at ha
        rcases hrev : get_reverse c with _ | rc
        · rw [hrev] at ha
          dsimp only at ha
          rcases List.mem_cons.mp ha with h | h
          · exact Or.inl ⟨c, List.mem_cons_self c cs', h⟩
          · exact goodArc_weaken c cs' a (ih h)
        · rw [hrev] at ha
          dsimp only at ha
          rcases List.mem_cons.mp ha with h | h
          · exact Or.inl ⟨c, List.mem_cons_self c cs', h⟩
          · rcases List.mem_cons.mp h with h2 | h2
            · exact Or.inr ⟨c, List.mem_cons_self c cs', rc, hrev, h2⟩
            · exact goodArc_weaken c cs' a (ih h2)

lemma acstep_preserves (cs : List (DateConstraint α)) (n : Nat) (sol : List α)
    (hlen : sol.length = n) (hW : WellIndexed cs n)
    (hcons : is_assignment_consistent (sol.map some) cs = true)
    (s s' : List (Arc α) × List (List α)) (hstep : ACStep cs s s')
    (hgoodW : ∀ a ∈ s.1, GoodArc cs a) (hin : SolIn sol s.2) :
    (∀ a ∈ s'.1, GoodArc cs a) ∧ SolIn sol s'.2 := by
  cases hstep with
  | step w d a pending ha hp =>
      constructor
      · intro x hx
        rw [mem_add_all] at hx
        rcases hx with hx | hx
        · exact hgoodW x (List.mem_of_mem_erase hx)
        · by_cases hfl : (riv_loop a pending d false).1 = true
          · rw [if_pos hfl] at hx
            obtain ⟨c, hc, _, rfl⟩ := (mem_get_arcs a cs x).mp hx
            exact Or.inl ⟨c, hc, rfl⟩
          · rw [if_neg hfl] at hx
            simp at hx
      · exact riv_preserves_solin a sol
          (fun dd tv hdd htv =>
            good_arc_support cs n sol hlen hW hcons a (hgoodW a ha) dd hdd tv htv)
          pending d false hin

lemma acrun_preserves (cs : List (DateConstraint α)) (n : Nat) (sol : List α)
    (hlen : sol.length = n) (hW : WellIndexed cs n)
    (hcons : is_assignment_consistent (sol.map some) cs = true)
    (s s' : List (Arc α) × List (List α))
    (hrun : Relation.ReflTransGen (ACStep cs) s s')
    (hgood : ∀ a ∈ s.1, GoodArc cs a) (hin : SolIn sol s.2) :
    (∀ a ∈ s'.1, GoodArc cs a) ∧ SolIn sol s'.2 := by
  induction hrun with
  | refl => exact ⟨hgood, hin⟩
  | tail h1 h2 ih =>
      obtain ⟨hg, hi⟩ := ih
      exact acstep_preserves cs n sol hlen hW hcons _ _ h2 hg hi

lemma acstep_domsub (cs : List (DateConstraint α))
    (s s' : List (Arc α) × List (List α)) (hstep : ACStep cs s s') :
    DomSub s'.2 s.2 := by
  cases hstep with
  | step w d a pending ha hp => exact riv_domsub a pending d false

lemma acrun_domsub (cs : List (DateConstraint α))
    (s s' : List (Arc α) × List (List α))
    (hrun : Relation.ReflTransGen (ACStep cs) s s') :
    DomSub s'.2 s.2 := by
  induction hrun with
  | refl => exact domSub_refl _
  | tail h1 h2 ih => exact domSub_trans (acstep_domsub cs _ _ h2) ih

lemma initDomains_getD (n : Nat) (dr : List α) (i : Nat) (h : i < n) :
    (initDomains n dr).getD i [] = dr := by
  rw [initDomains, getD_getElem?, List.getElem?_replicate, if_pos h]
  rfl

lemma initDomains_sub (n : Nat) (dr : List α) : ∀ i, (initDomains n dr).getD i [] ⊆ dr := by
  intro i
  by_cases h : i < n
  · rw [initDomains_getD n dr i h]
    exact fun x hx => hx
  · rw [initDomains, getD_getElem?, List.getElem?_replicate, if_neg h]
    exact fun x hx => by simp at hx

lemma is_assignment_consistent_nil (cs : List (DateConstraint α)) :
    is_assignment_consistent ([] : List (Option α)) cs = true := by
  rw [is_assignment_consistent, List.all_eq_true]
  intro c _
  apply isba_of_left_none
  rfl

lemma solve_backtracker_sound (n : Nat) (dm : List (List α)) (cs : List (DateConstraint α))
    (l : List α)
    (h : recursive_backtracker (List.range n) dm cs n (List.replicate n none) = some l) :
    l.length = n ∧ is_assignment_consistent (l.map some) cs = true ∧ SolIn l dm := by
  obtain ⟨b, hblen, hbsome, hbeq, hbext, hbnew, hbcons⟩ :=
    backtracker_sound n dm cs n (List.replicate n none) l (List.length_replicate n none) h
  have hlenb : b.length = n := by rw [hblen, List.length_replicate]
  have hmap : (l.map some) = b := by rw [hbeq]; exact filterMap_id_map_some b hbsome
  have hllen : l.length = n := by rw [hbeq, filterMap_id_length b hbsome, hlenb]
  refine ⟨hllen, ?_, ?_⟩
  · rcases hbcons with hok | hba
    · rw [hmap]; exact hok
    · rw [hba] at hbsome
      have hn0 : n = 0 := by
        cases n with
        | zero => rfl
        | succ k => simp [List.replicate] at hbsome
      subst hn0
      have hl0 : l = [] := List.length_eq_zero.mp hllen
      rw [hl0]
      exact is_assignment_consistent_nil cs
  · intro i v hv
    have hilt : i < n := by
      have := (List.getElem?_eq_some_iff.mp hv).1
      omega
    have hiv : b[i]? = some (some v) := by
      rw [← hmap, List.getElem?_map, hv]
      rfl
    have hrep : (List.replicate n (none : Option α))[i]? = some none := by
      rw [List.getElem?_replicate, if_pos hilt]
    exact hbnew i v hrep hiv

lemma solve_backtracker_complete (n : Nat) (dm : List (List α)) (cs : List (DateConstraint α))
    (sol : List α) (hlen : sol.length = n)
    (hcons : is_assignment_consistent (sol.map some) cs = true)
    (hdom : SolIn sol dm) :
    ∃ l, recursive_backtracker (List.range n) dm cs n (List.replicate n none) = some l := by
  apply backtracker_complete n dm cs sol hlen hcons hdom n (List.replicate n none)
    (List.length_replicate n none)
  · intro i v h
    rw [List.getElem?_replicate] at h
    by_cases hi : i < n
    · rw [if_pos hi] at h; cases h
    · rw [if_neg hi] at h; cases h
  · calc countNone (List.replicate n (none : Option α))
        ≤ (List.replicate n (none : Option α)).length := List.countP_le_length _
      _ = n := List.length_replicate n none

lemma solveR_sound (n : Nat) (dr : List α) (cs : List (DateConstraint α))
    (r : Option (List α)) (h : solveR n dr cs r) (l : List α) (hr : r = some l) :
    l.length = n ∧ (∀ v ∈ l, v ∈ dr) ∧ is_assignment_consistent (l.map some) cs = true := by
  obtain ⟨dAC, hAC, hrdef⟩ := h
  rw [hr] at hrdef
  obtain ⟨hlen, hcons, hin⟩ := solve_backtracker_sound n dAC cs l hrdef.symm
  refine ⟨hlen, ?_, hcons⟩
  have hsub : DomSub dAC (node_consistency (initDomains n dr) cs) :=
    acrun_domsub cs _ _ hAC
  have hsub2 : DomSub (node_consistency (initDomains n dr) cs) (initDomains n dr) :=
    node_consistency_domsub cs _
  intro v hv
  obtain ⟨i, hlt, he⟩ := List.mem_iff_getElem.mp hv
  have hmem : v ∈ dAC.getD i [] := hin i v (List.getElem?_eq_some_iff.mpr ⟨hlt, he⟩)
  exact initDomains_sub n dr i (hsub2 i (hsub i hmem))

lemma solveR_complete (n : Nat) (dr : List α) (cs : List (DateConstraint α))
    (r : Option (List α)) (hW : WellIndexed cs n) (hrun : solveR n dr cs r)
    (hsolv : Solvable n dr cs) : ∃ l, r = some l := by
  obtain ⟨dAC, hAC, hrdef⟩ := hrun
  obtain ⟨sol, hslen, hsvals, hscons⟩ := hsolv
  have h0 : SolIn sol (initDomains n dr) := by
    intro i v hv
    have hilt : i < n := by
      have := (List.getElem?_eq_some_iff.mp hv).1
      omega
    rw [initDomains_getD n dr i hilt]
    obtain ⟨hlt2, he⟩ := List.getElem?_eq_some_iff.mp hv
    exact hsvals v (he ▸ List.getElem_mem hlt2)
  have h1 : SolIn sol (node_consistency (initDomains n dr) cs) :=
    node_consistency_preserves_solin cs sol hscons _ h0
  have h2 := acrun_preserves cs n sol hslen hW hscons _ _ hAC (init_arcs_good cs) h1
  obtain ⟨l, hl⟩ := solve_backtracker_complete n dAC cs sol hslen hscons h2.2
  exact ⟨l, by rw [hrdef, hl]⟩

lemma acstep_of_eq (cs : List (DateConstraint α)) (w : List (Arc α)) (d : List (List α))
    (a : Arc α) (w' : List (Arc α)) (d' : List (List α)) (ha : a ∈ w)
    (h1 : add_all (w.erase a)
        (if (riv_loop a (d.getD a.TAIL []) d false).1 then
          get_arcs_related_to_tail a cs else []) = w')
    (h2 : (riv_loop a (d.getD a.TAIL []) d false).2 = d') :
    ACStep cs (w, d) (w', d') := by
  subst h1
  subst h2
  exact ACStep.step w d a (d.getD a.TAIL []) ha (List.Perm.refl _)

/-- A complete run of `arc_consistency` on the `test_csp_arc_consistency_t4`
instance (all three domains `{1,2}`) in which the worklist pops, in order,
the arcs `(1,0,==) (0,1,==) (1,2,!=) (2,1,!=) (0,2,>) (2,0,<) (0,1,==)`
and terminates with `domains = [[2],[1,2],[1]]`.  The arc `(1,0,==)` runs
while `domains[0]` is still `{1,2}`; when revising `(0,2,>)` later shrinks
`domains[0]`, only constraints whose `L_VAL` equals that arc's head (`2`)
are re-queued, so `(1,0,==)` never runs again and the value `1` survives
in `domains[1]` even though it has lost all support. -/
lemma t4_bad_run : ACReaches t4cs [[1, 2], [1, 2], [1, 2]] [[2], [1, 2], [1]] := by
  rw [ACReaches]
  have h0 : init_arcs t4cs = [t4A1, t4A1r, t4A2, t4A2r, t4A3, t4A3r] := by decide
  rw [h0]
  have s1 : ACStep t4cs
      ([t4A1, t4A1r, t4A2, t4A2r, t4A3, t4A3r], [[1, 2], [1, 2], [1, 2]])
      ([t4A1, t4A2, t4A2r, t4A3, t4A3r], [[1, 2], [1, 2], [1, 2]]) :=
    acstep_of_eq _ _ _ t4A1r _ _ (by decide) (by decide) (by decide)
  have s2 : ACStep t4cs
      ([t4A1, t4A2, t4A2r, t4A3, t4A3r], [[1, 2], [1, 2], [1, 2]])
      ([t4A2, t4A2r, t4A3, t4A3r], [[1, 2], [1, 2], [1, 2]]) :=
    acstep_of_eq _ _ _ t4A1 _ _ (by decide) (by decide) (by decide)
  have s3 : ACStep t4cs
      ([t4A2, t4A2r, t4A3, t4A3r], [[1, 2], [1, 2], [1, 2]])
      ([t4A2r, t4A3, t4A3r], [[1, 2], [1, 2], [1, 2]]) :=
    acstep_of_eq _ _ _ t4A2 _ _ (by decide) (by decide) (by decide)
  have s4 : ACStep t4cs
      ([t4A2r, t4A3, t4A3r], [[1, 2], [1, 2], [1, 2]])
      ([t4A3, t4A3r], [[1, 2], [1, 2], [1, 2]]) :=
    acstep_of_eq _ _ _ t4A2r _ _ (by decide) (by decide) (by decide)
  have s5 : ACStep t4cs
      ([t4A3, t4A3r], [[1, 2], [1, 2], [1, 2]])
      ([t4A3], [[2], [1, 2], [1, 2]]) :=
    acstep_of_eq _ _ _ t4A3r _ _ (by decide) (by decide) (by decide)
  have s6 : ACStep t4cs
      ([t4A3], [[2], [1, 2], [1, 2]])
      ([t4A1], [[2], [1, 2], [1]]) :=
    acstep_of_eq _ _ _ t4A3 _ _ (by decide) (by decide) (by decide)
  have s7 : ACStep t4cs
      ([t4A1], [[2], [1, 2], [1]])
      ([], [[2], [1, 2], [1]]) :=
    acstep_of_eq _ _ _ t4A1 _ _ (by decide) (by decide) (by decide)
  exact Relation.ReflTransGen.head s1 (Relation.ReflTransGen.head s2
    (Relation.ReflTransGen.head s3 (Relation.ReflTransGen.head s4
      (Relation.ReflTransGen.head s5 (Relation.ReflTransGen.head s6
        (Relation.ReflTransGen.head s7 Relation.ReflTransGen.refl))))))

/-- A complete run of `arc_consistency` on the instance `{0 < 1}` with both
domains `{1,2}`, reaching the arc-consistent fixed point `[[1],[2]]`. -/
lemma c2run :
    Relation.ReflTransGen (ACStep [(⟨0, "<", Sum.inl 1⟩ : DateConstraint Int)])
      (init_arcs [(⟨0, "<", Sum.inl 1⟩ : DateConstraint Int)], [[1, 2], [1, 2]])
      ([], [[1], [2]]) := by
  have h0 : init_arcs [(⟨0, "<", Sum.inl 1⟩ : DateConstraint Int)] =
      [Arc.ofConstraint ⟨0, "<", Sum.inl 1⟩, Arc.ofConstraint ⟨1, ">", Sum.inl 0⟩] := by decide
  rw [h0]
  have s1 : ACStep [(⟨0, "<", Sum.inl 1⟩ : DateConstraint Int)]
      ([Arc.ofConstraint ⟨0, "<", Sum.inl 1⟩, Arc.ofConstraint ⟨1, ">", Sum.inl 0⟩],
        [[1, 2], [1, 2]])
      ([Arc.ofConstraint ⟨1, ">", Sum.inl 0⟩], [[1], [1, 2]]) :=
    acstep_of_eq _ _ _ (Arc.ofConstraint ⟨0, "<", Sum.inl 1⟩) _ _
      (by decide) (by decide) (by decide)
  have s2 : ACStep [(⟨0, "<", Sum.inl 1⟩ : DateConstraint Int)]
      ([Arc.ofConstraint ⟨1, ">", Sum.inl 0⟩], [[1], [1, 2]])
      ([Arc.ofConstraint ⟨0, "<", Sum.inl 1⟩], [[1], [2]]) :=
    acstep_of_eq _ _ _ (Arc.ofConstraint ⟨1, ">", Sum.inl 0⟩) _ _
      (by decide) (by decide) (by decide)
  have s3 : ACStep [(⟨0, "<", Sum.inl 1⟩ : DateConstraint Int)]
      ([Arc.ofConstraint ⟨0, "<", Sum.inl 1⟩], [[1], [2]])
      ([], [[1], [2]]) :=
    acstep_of_eq _ _ _ (Arc.ofConstraint ⟨0, "<", Sum.inl 1⟩) _ _
      (by decide) (by decide) (by decide)
  exact Relation.ReflTransGen.head s1 (Relation.ReflTransGen.head s2
    (Relation.ReflTransGen.head s3 Relation.ReflTransGen.refl))

lemma solIn_of_getElem (sol : List α) (d : List (List α))
    (h : ∀ (i : Nat) (hi : i < sol.length), sol[i] ∈ d.getD i []) :
    SolIn sol d := by
  intro i v hv
  obtain ⟨hlt, he⟩ := List.getElem?_eq_some_iff.mp hv
  exact he ▸ h i hlt

/-! ## Claim theorems -/

/-- C1: for every instance whose constraints only mention variables `< n`,
every possible result of `solve` is a length-`n`, fully assigned list of
candidate time points satisfying every constraint when the instance is
solvable, and the no-solution marker `none` when it is not (never a
partially filled list). -/
theorem C1_solve_correct (n : Nat) (date_range : List α)
    (cs : List (DateConstraint α)) (r : Option (List α))
    (hW : WellIndexed cs n) (hrun : solveR n date_range cs r) :
    (Solvable n date_range cs →
      ∃ l, r = some l ∧ l.length = n ∧ (∀ v ∈ l, v ∈ date_range) ∧
        is_assignment_consistent (l.map some) cs = true) ∧
    (¬ Solvable n date_range cs → r = none) := by
  constructor
  · intro hsolv
    obtain ⟨l, hl⟩ := solveR_complete n date_range cs r hW hrun hsolv
    obtain ⟨h1, h2, h3⟩ := solveR_sound n date_range cs r hrun l hl
    exact ⟨l, hl, h1, h2, h3⟩
  · intro hns
    rcases hr : r with _ | l
    · rfl
    · exfalso
      obtain ⟨h1, h2, h3⟩ := solveR_sound n date_range cs r hrun l hr
      exact hns ⟨l, h1, h2, h3⟩

/-- Witness for C1 at `n = 1`, candidates `{5, 7}`, constraint `0 == 5`. -/
theorem C1_solve_correct_witness :
    ∃ l, (some [(5 : Int)] : Option (List Int)) = some l ∧ l.length = 1 ∧
      (∀ v ∈ l, v ∈ [(5 : Int), 7]) ∧
      is_assignment_consistent (l.map some)
        [(⟨0, "==", Sum.inr 5⟩ : DateConstraint Int)] = true := by
  have hW : WellIndexed [(⟨0, "==", Sum.inr 5⟩ : DateConstraint Int)] 1 := by
    intro c hc
    have := List.mem_singleton.mp hc
    subst this
    exact ⟨by decide, fun r hr => by simp at hr⟩
  have hreach : ACReaches [(⟨0, "==", Sum.inr 5⟩ : DateConstraint Int)]
      (node_consistency (initDomains 1 [5, 7]) [⟨0, "==", Sum.inr 5⟩]) [[5]] := by
    rw [ACReaches]
    have hnc : node_consistency (initDomains 1 [(5 : Int), 7]) [⟨0, "==", Sum.inr 5⟩]
        = [[5]] := by decide
    rw [hnc]
    have h0 : init_arcs [(⟨0, "==", Sum.inr 5⟩ : DateConstraint Int)] =
        [Arc.ofConstraint ⟨0, "==", Sum.inr 5⟩] := by decide
    rw [h0]
    have s1 : ACStep [(⟨0, "==", Sum.inr 5⟩ : DateConstraint Int)]
        ([Arc.ofConstraint ⟨0, "==", Sum.inr 5⟩], [[5]]) ([], [[5]]) :=
      acstep_of_eq _ _ _ (Arc.ofConstraint ⟨0, "==", Sum.inr 5⟩) _ _
        (by decide) (by decide) (by decide)
    exact Relation.ReflTransGen.head s1 Relation.ReflTransGen.refl
  have hrun : solveR 1 [(5 : Int), 7] [⟨0, "==", Sum.inr 5⟩] (some [5]) :=
    ⟨[[5]], hreach, rfl⟩
  have hsolv : Solvable 1 [(5 : Int), 7] [⟨0, "==", Sum.inr 5⟩] :=
    ⟨[5], rfl, by decide, by decide⟩
  exact (C1_solve_correct 1 [5, 7] [⟨0, "==", Sum.inr 5⟩] (some [5]) hW hrun).1 hsolv

/-- C2: `arc_consistency` never removes a value occurring in a complete
solution drawn from the current domains (no false pruning), and — for
every instance, solvable or not — the backtracking search on the filtered
domains finds a solution iff it finds one on the unfiltered domains: the
equivalence conjunct has no solvability hypothesis, so it also says that
an unsatisfiable instance fails on both sides. -/
theorem C2_arc_consistency_no_false_pruning (n : Nat)
    (cs : List (DateConstraint α)) (d0 dF : List (List α))
    (hW : WellIndexed cs n)
    (hAC : Relation.ReflTransGen (ACStep cs) (init_arcs cs, d0) ([], dF)) :
    (∀ sol : List α, sol.length = n → SolIn sol d0 →
      is_assignment_consistent (sol.map some) cs = true →
      ∀ (i : Nat) (v : α), sol[i]? = some v → v ∈ dF.getD i []) ∧
    ((∃ l, recursive_backtracker (List.range n) dF cs n
        (List.replicate n none) = some l) ↔
      ∃ l, recursive_backtracker (List.range n) d0 cs n
        (List.replicate n none) = some l) := by
  constructor
  · intro sol hlen hin hcons i v hiv
    exact (acrun_preserves cs n sol hlen hW hcons _ _ hAC
      (init_arcs_good cs) hin).2 i v hiv
  · constructor
    · rintro ⟨l, hl⟩
      obtain ⟨hllen, hlcons, hlin⟩ := solve_backtracker_sound n dF cs l hl
      have hsub : DomSub dF d0 := acrun_domsub cs _ _ hAC
      exact solve_backtracker_complete n d0 cs l hllen hlcons
        (fun j w hw => hsub j (hlin j w hw))
    · rintro ⟨l, hl⟩
      obtain ⟨hllen, hlcons, hlin⟩ := solve_backtracker_sound n d0 cs l hl
      exact solve_backtracker_complete n dF cs l hllen hlcons
        (acrun_preserves cs n l hllen hW hlcons _ _ hAC
          (init_arcs_good cs) hlin).2

/-- Witness for C2 at the instance `{0 < 1}`, both domains `{1, 2}`, with
the `c2run` arc-consistency run ending in `[[1], [2]]`. -/
theorem C2_arc_consistency_no_false_pruning_witness :
    (∀ sol : List Int, sol.length = 2 → SolIn sol [[1, 2], [1, 2]] →
      is_assignment_consistent (sol.map some)
        [(⟨0, "<", Sum.inl 1⟩ : DateConstraint Int)] = true →
      ∀ (i : Nat) (v : Int), sol[i]? = some v →
        v ∈ ([[1], [2]] : List (List Int)).getD i []) ∧
    ((∃ l, recursive_backtracker (List.range 2) [[1], [2]]
        [(⟨0, "<", Sum.inl 1⟩ : DateConstraint Int)] 2
        (List.replicate 2 none) = some l) ↔
      ∃ l, recursive_backtracker (List.range 2) [[1, 2], [1, 2]]
        [(⟨0, "<", Sum.inl 1⟩ : DateConstraint Int)] 2
        (List.replicate 2 none) = some l) := by
  have hW : WellIndexed [(⟨0, "<", Sum.inl 1⟩ : DateConstraint Int)] 2 := by
    intro c hc
    have := List.mem_singleton.mp hc
    subst this
    refine ⟨by decide, fun r hr => ?_⟩
    injection hr with hr
    subst hr
    decide
  exact C2_arc_consistency_no_false_pruning 2 [⟨0, "<", Sum.inl 1⟩]
    [[1, 2], [1, 2]] [[1], [2]] hW c2run

/-- C3 (code bug): after the `t4_bad_run` execution of `arc_consistency`
on the `test_csp_arc_consistency_t4` instance, the binary constraint
`1 != 2` still has the value `1` in the domain of its tail (variable 1),
yet no value in the domain of its head (variable 2) satisfies it: the
final domains are not arc-consistent. -/
theorem C3_arc_consistency_unsound :
    ACReaches t4cs [[1, 2], [1, 2], [1, 2]] [[2], [1, 2], [1]] ∧
    t4c2 ∈ t4cs ∧ (Arc.ofConstraint t4c2).TAIL = 1 ∧
    (1 : Int) ∈ ([[2], [1, 2], [1]] : List (List Int)).getD 1 [] ∧
    exists_satisfying_head_value (1 : Int) (Arc.ofConstraint t4c2)
      [[2], [1, 2], [1]] = false :=
  ⟨t4_bad_run, by decide, by decide, by decide, by decide⟩

/-- C4 counterexample: a reachable revision step of `arc_consistency` on
the instance `{0 < 1}` removes a value from `domains[0]` while the
reversed arc `(1 > 0)` — whose tail `1` equals the processed arc's head —
is not re-added: `get_arcs_related_to_tail` yields nothing and the
resulting worklist is empty. -/
theorem C4_requeue_counterexample :
    ACStep [c4c] (init_arcs [c4c], [[2], [1]]) ([c4A], [[2], []]) ∧
    ACStep [c4c] ([c4A], [[2], []]) ([], [[], []]) ∧
    (remove_inconsistent_values [[2], []] c4A).1 = true ∧
    c4A.HEAD = some c4Ar.TAIL ∧
    get_arcs_related_to_tail c4A [c4c] = [] ∧
    c4Ar ∉ ([] : List (Arc Int)) :=
  ⟨acstep_of_eq _ _ _ c4Ar _ _ (by decide) (by decide) (by decide),
   acstep_of_eq _ _ _ c4A _ _ (by decide) (by decide) (by decide),
   by decide, by decide, by decide, by decide⟩

/-- C4 amended: whenever a revision of an arc removes a value, the arcs
re-added to the worklist are exactly `get_arcs_related_to_tail`, i.e. the
forward arcs `Arc(c)` of the constraints `c` of the input set whose
`L_VAL` equals the processed arc's head; reversed arcs are never
re-queued. -/
theorem C4_amended_requeue (cs : List (DateConstraint α))
    (w w' : List (Arc α)) (d d' : List (List α))
    (h : ACStep cs (w, d) (w', d')) :
    ∃ a ∈ w, ∃ pending : List α, pending.Perm (d.getD a.TAIL []) ∧
      d' = (riv_loop a pending d false).2 ∧
      ∀ arc : Arc α, arc ∈ w' ↔
        (arc ∈ w.erase a ∨
          ((riv_loop a pending d false).1 = true ∧
            ∃ c ∈ cs, some c.L_VAL = a.HEAD ∧ arc = Arc.ofConstraint c)) := by
  cases h with
  | step w d a pending ha hp =>
      refine ⟨a, ha, pending, hp, rfl, ?_⟩
      intro arc
      rw [mem_add_all]
      by_cases hfl : (riv_loop a pending d false).1 = true
      · rw [if_pos hfl, mem_get_arcs]
        constructor
        · rintro (h | h)
          · exact Or.inl h
          · exact Or.inr ⟨hfl, h⟩
        · rintro (h | ⟨_, h⟩)
          · exact Or.inl h
          · exact Or.inr h
      · rw [if_neg hfl]
        simp only [List.not_mem_nil, or_false]
        constructor
        · exact Or.inl
        · rintro (h | ⟨hc, _⟩)
          · exact h
          · exact absurd hc hfl

/-- Witness for the amended C4 at the second step of the `{0 < 1}` run. -/
theorem C4_amended_requeue_witness :
    ∃ a ∈ [c4A], ∃ pending : List Int,
      pending.Perm (([[2], []] : List (List Int)).getD a.TAIL []) ∧
      ([[], []] : List (List Int)) = (riv_loop a pending [[2], []] false).2 ∧
      ∀ arc : Arc Int, arc ∈ ([] : List (Arc Int)) ↔
        (arc ∈ ([c4A] : List (Arc Int)).erase a ∨
          ((riv_loop a pending [[2], []] false).1 = true ∧
            ∃ c ∈ [c4c], some c.L_VAL = a.HEAD ∧ arc = Arc.ofConstraint c)) :=
  C4_amended_requeue [c4c] [c4A] [] [[2], []] [[], []]
    (acstep_of_eq _ _ _ c4A _ _ (by decide) (by decide) (by decide))

/-- C5 (code bug): on the spec's full-pipeline scenario (3 variables,
domain `{d1, d2} = {1, 2}`, constraints `{0==1, 1!=2, 2<0}`), node
consistency leaves the domains untouched, and `arc_consistency` can
terminate with `domains[1] = {1, 2}` — of size 2, not the claimed
singleton `{d2}` — although backtracking on these domains still returns
`[d2, d2, d1] = [2, 2, 1]`. -/
theorem C5_pipeline_domains :
    node_consistency (initDomains 3 [1, 2]) t4cs = [[1, 2], [1, 2], [1, 2]] ∧
    ACReaches t4cs [[1, 2], [1, 2], [1, 2]] [[2], [1, 2], [1]] ∧
    (([[2], [1, 2], [1]] : List (List Int)).getD 1 []).length ≠ 1 ∧
    (1 : Int) ∈ ([[2], [1, 2], [1]] : List (List Int)).getD 1 [] ∧
    (2 : Int) ∈ ([[2], [1, 2], [1]] : List (List Int)).getD 1 [] ∧
    recursive_backtracker (List.range 3) [[2], [1, 2], [1]] t4cs 3
      (List.replicate 3 none) = some [2, 2, 1] :=
  ⟨by decide, t4_bad_run, by decide, by decide, by decide, by decide⟩

/-- C6: for every binary constraint, `get_reverse` swaps `L_VAL` and
`R_VAL` and replaces the operator by its symmetric counterpart, and
satisfaction of a value pair is invariant under the reversal. -/
theorem C6_reverse_symmetry (c : DateConstraint α) (r : Nat)
    (h : c.R_VAL = Sum.inl r) (a b : α) :
    ∃ rc, get_reverse c = some rc ∧ rc.L_VAL = r ∧
      rc.OP = symmetrical_op c.OP ∧ rc.R_VAL = Sum.inl c.L_VAL ∧
      is_satisfied_by_values c a b = is_satisfied_by_values rc b a := by
  refine ⟨⟨r, symmetrical_op c.OP, Sum.inl c.L_VAL⟩, ?_, rfl, rfl, rfl, ?_⟩
  · rw [get_reverse, h]
  · show op_eval c.OP a b = op_eval (symmetrical_op c.OP) b a
    exact (op_eval_symm c.OP a b).symm

/-- Witness for C6 at the constraint `0 < 1` and the pair `(3, 5)`. -/
theorem C6_reverse_symmetry_witness :
    ∃ rc, get_reverse (⟨0, "<", Sum.inl 1⟩ : DateConstraint Int) = some rc ∧
      rc.L_VAL = 1 ∧ rc.OP = symmetrical_op "<" ∧ rc.R_VAL = Sum.inl 0 ∧
      is_satisfied_by_values (⟨0, "<", Sum.inl 1⟩ : DateConstraint Int) 3 5 =
        is_satisfied_by_values rc 5 3 :=
  C6_reverse_symmetry ⟨0, "<", Sum.inl 1⟩ 1 rfl 3 5

/-- C7: `is_satisfied_by_assignment` returns `true` whenever a referenced
slot is out of range of the assignment or unassigned, and evaluates the
operator on the two looked-up values exactly when every referenced slot
holds an assigned value. -/
theorem C7_unassigned_slot_semantics (c : DateConstraint α)
    (assignment : List (Option α)) :
    ((assignment[c.L_VAL]? = none ∨ assignment[c.L_VAL]? = some none ∨
      (∃ r, c.R_VAL = Sum.inl r ∧
        (assignment[r]? = none ∨ assignment[r]? = some none))) →
      is_satisfied_by_assignment c assignment = true) ∧
    (∀ lv, assignment[c.L_VAL]? = some (some lv) →
      (∀ dt, c.R_VAL = Sum.inr dt →
        is_satisfied_by_assignment c assignment = dates_satisfy c lv dt) ∧
      (∀ r rv, c.R_VAL = Sum.inl r → assignment[r]? = some (some rv) →
        is_satisfied_by_assignment c assignment = dates_satisfy c lv rv)) := by
  constructor
  · rintro (h | h | ⟨r, hR, h | h⟩)
    · exact isba_of_left_none c assignment (by rw [h]; rfl)
    · exact isba_of_left_none c assignment (by rw [h]; rfl)
    · exact isba_of_right_none c assignment r hR (by rw [h]; rfl)
    · exact isba_of_right_none c assignment r hR (by rw [h]; rfl)
  · intro lv hlv
    constructor
    · intro dt hR
      exact isba_unary c assignment dt lv hR (by rw [hlv]; rfl)
    · intro r rv hR hrv
      exact isba_binary c assignment r lv rv hR (by rw [hlv]; rfl) (by rw [hrv]; rfl)

/-- Witness for C7: fully assigned case of `0 < 1` on `[3, 5]`. -/
theorem C7_unassigned_slot_semantics_witness :
    is_satisfied_by_assignment (⟨0, "<", Sum.inl 1⟩ : DateConstraint Int)
      [some 3, some 5] =
      dates_satisfy (⟨0, "<", Sum.inl 1⟩ : DateConstraint Int) 3 5 :=
  ((C7_unassigned_slot_semantics (⟨0, "<", Sum.inl 1⟩ : DateConstraint Int)
    [some 3, some 5]).2 3 rfl).2 1 5 rfl rfl

/-- C8 (code bug): construction rejects exactly the malformed inputs, but
an invalid operator token raises the `AttributeError` coming from
`str(self)` in the error message (no attribute is assigned yet at that
point), not the intended validation `ValueError`; negative indices do
raise `ValueError`, and a well-formed input constructs successfully. -/
theorem C8_invalid_op_raises_attribute_error :
    (DateConstraint.init 0 "=" (Sum.inl 1) : Except PyError (DateConstraint Int)) =
      Except.error PyError.attributeError ∧
    (DateConstraint.init (-1) "==" (Sum.inl 1) : Except PyError (DateConstraint Int)) =
      Except.error PyError.valueError ∧
    (DateConstraint.init 0 "==" (Sum.inl (-1)) : Except PyError (DateConstraint Int)) =
      Except.error PyError.valueError ∧
    (DateConstraint.init 0 "==" (Sum.inl 1) : Except PyError (DateConstraint Int)) =
      Except.ok ⟨0, "==", Sum.inl 1⟩ ∧
    PyError.attributeError ≠ PyError.valueError :=
  ⟨rfl, rfl, rfl, rfl, by decide⟩

/-- C9: every variable's initial domain is the full candidate set, and
pruning one variable's domain — whether by node consistency or by a
`remove_inconsistent_values` revision — never changes another variable's
domain. -/
theorem C9_domain_independence :
    (∀ (n : Nat) (dr : List Int) (i : Nat), i < n →
      (initDomains n dr).getD i [] = dr) ∧
    (∀ (cs : List (DateConstraint Int)) (d : List (List Int)) (j : Nat),
      (∀ c ∈ cs, c.arity = 1 → c.L_VAL ≠ j) →
      (node_consistency d cs).getD j [] = d.getD j []) ∧
    (∀ (a : Arc Int) (pending : List Int) (d : List (List Int)) (b : Bool)
      (j : Nat), j ≠ a.TAIL →
      ((riv_loop a pending d b).2).getD j [] = d.getD j []) := by
  refine ⟨fun n dr i h => initDomains_getD n dr i h, ?_, ?_⟩
  · intro cs
    induction cs with
    | nil => intro d j h; rfl
    | cons c cs' ih =>
        intro d j h
        show (node_consistency _ cs').getD j [] = d.getD j []
        rw [ih _ j (fun x hx hx1 => h x (List.mem_cons_of_mem c hx) hx1)]
        show (if c.arity = 1 then
            d.set c.L_VAL
              ((d.getD c.L_VAL []).filter
                (fun v => (is_satisfied_by_values_unary c v).getD false))
          else d).getD j [] = d.getD j []
        by_cases har : c.arity = 1
        · rw [if_pos har]
          exact getD_set_ne d _ _ _ (h c (List.mem_cons_self c cs') har).symm
        · rw [if_neg har]
  · intro a pending
    induction pending with
    | nil => intro d b j h; rfl
    | cons tv rest ih =>
        intro d b j h
        rw [riv_loop]
        by_cases hs : exists_satisfying_head_value tv a d = true
        · rw [if_pos hs]
          exact ih d b j h
        · rw [if_neg hs]
          rw [ih _ true j h]
          exact getD_set_ne d _ _ _ h

/-- Witness for C9 at concrete domains. -/
theorem C9_domain_independence_witness :
    (initDomains 3 [(1 : Int), 2]).getD 1 [] = [1, 2] ∧
    (node_consistency [[(1 : Int)], [2]] [⟨0, "==", Sum.inr 1⟩]).getD 1 [] =
      ([[(1 : Int)], [2]] : List (List Int)).getD 1 [] ∧
    ((riv_loop c4A [2] [[(2 : Int)], [1]] false).2).getD 1 [] =
      ([[(2 : Int)], [1]] : List (List Int)).getD 1 [] := by
  obtain ⟨h1, h2, h3⟩ := C9_domain_independence
  refine ⟨h1 3 [1, 2] 1 (by decide), ?_, h3 c4A [2] [[2], [1]] false 1 (by decide)⟩
  apply h2 [⟨0, "==", Sum.inr 1⟩] [[1], [2]] 1
  intro c hc har
  have := List.mem_singleton.mp hc
  subst this
  decide

/-- C10: with zero meetings and an empty constraint set, every possible
result of `solve` is the empty list — a present, zero-length solution,
not the no-solution marker — for every candidate set. -/
theorem C10_zero_meetings (date_range : List α) (r : Option (List α))
    (h : solveR 0 date_range [] r) : r = some [] := by
  obtain ⟨dAC, hAC, hr⟩ := h
  rw [hr]
  rfl

/-- Witness for C10 at the candidate set `{3}`. -/
theorem C10_zero_meetings_witness :
    solveR 0 [(3 : Int)] [] (some []) ∧
      (some [] : Option (List Int)) = some [] :=
  ⟨⟨[], Relation.ReflTransGen.refl, rfl⟩,
   C10_zero_meetings [3] (some []) ⟨[], Relation.ReflTransGen.refl, rfl⟩⟩

end CalendarSat
